import Mathlib

/-!
Verification of the JWT core of `include/jwt-cpp/jwt.h` (jwt-cpp ported to
mbedtls): claim data model, compact-token decoding, algorithm abstraction
(none / HMAC-SHA2 / ECDSA), token builder and the claim/time verifier.

Modelling conventions:
* C++ `std::string` values (both text and raw bytes) are `List Nat`, one
  entry per byte; `'.'` is byte 46, the base64 fill `'='` is byte 61.
* The external collaborators that are not part of `src/` (the picojson
  JSON codec in `picojson.h` and the base64url codec in `base.h`) are
  either parameters of the functions that call them (JSON parse/serialize)
  or modelled from the spec (base64url, see `b64encode`/`b64decode`).
* C++ exceptions become `Except` error values; each constructor of the
  error types below names the exception/message thrown by the source.
-/

namespace Jwt

/-- Byte-string view of a Lean string literal (ASCII), used for concrete
test inputs. -/
def bytes (s : String) : List Nat := s.toList.map Char.toNat

/-- The `'.'` separator byte of the compact serialization. -/
def dotByte : Nat := 46

/-- The base64url fill character `'='`. -/
def fillByte : Nat := 61

/-! ## JSON value model (picojson with `PICOJSON_USE_INT64`) -/

/-- Model of `picojson::value`: a tagged JSON tree with separate `int64`
and `number` (double) variants, as picojson provides under
`PICOJSON_USE_INT64`.  Doubles never participate in any comparison the
core performs, so their payload is modelled as `Rat`. -/
inductive JsonValue where
  | null
  | boolean (b : Bool)
  | int64 (n : Int)
  | number (q : Rat)
  | string (s : String)
  | array (xs : List JsonValue)
  | object (kvs : List (String × JsonValue))

/-- The `claim::type` enumeration of the source. -/
inductive ClaimType where
  | null
  | boolean
  | number
  | string
  | array
  | object
  | int64
  deriving DecidableEq

/-- `claim::get_type`: discriminate the stored picojson variant. -/
def getType : JsonValue → ClaimType
  | .null => .null
  | .boolean _ => .boolean
  | .int64 _ => .int64
  | .number _ => .number
  | .string _ => .string
  | .array _ => .array
  | .object _ => .object

/-! ## Error taxonomy

Constructors are named after the C++ exception (and message) the source
throws at the corresponding place. -/

/-- Errors raised while decoding a compact token (`decoded_jwt`'s
constructor): `std::invalid_argument("invalid token supplied")` is the
spec's FormatError, the base64 and JSON failures are the spec's
DecodeError. -/
inductive DecodeErr where
  | invalidToken
  | base64Error
  | invalidJson
  deriving DecidableEq

/-- Errors raised by claim accessors and `verifier::verify`. `claimNotFound`
is `std::runtime_error("claim not found")`, `badCast` is `std::bad_cast`,
`wrongAlgorithm` .. `missingAudience` are the
`token_verification_exception` messages, `invalidSignature` is
`signature_verification_exception`. -/
inductive VErr where
  | claimNotFound
  | badCast
  | wrongAlgorithm
  | invalidSignature
  | tokenExpired
  | missingClaim (name : String)
  | typeMismatch (name : String)
  | claimMismatch (name : String)
  | internalError
  | missingAudience
  deriving DecidableEq

/-! ## Claim accessors (`class claim`) -/

/-- `claim::as_string`. -/
def asString : JsonValue → Except VErr String
  | .string s => .ok s
  | _ => .error .badCast

/-- `claim::as_int` (also the backing of `as_date`: a date is the stored
int64 interpreted as epoch seconds, `from_time_t`/`to_time_t` compose to
the identity on it). -/
def asInt : JsonValue → Except VErr Int
  | .int64 n => .ok n
  | _ => .error .badCast

/-- The `std::string` lexicographic order (computed on the character
lists; `String.lt` is definitionally the same order). -/
def strLt (s t : String) : Bool := decide (s.data < t.data)

/-- Ordered insertion into a `std::set<std::string>` model: the set is a
strictly sorted list. -/
def setInsert (s : String) : List String → List String
  | [] => [s]
  | x :: xs =>
    if strLt s x then s :: x :: xs
    else if s = x then x :: xs
    else x :: setInsert s xs

/-- The element loop of `claim::as_set`: insert each string into the
set, throw `std::bad_cast` at the first non-string element. -/
def asSetGo : List JsonValue → List String → Except VErr (List String)
  | [], acc => .ok acc
  | e :: rest, acc =>
    match e with
    | .string s => asSetGo rest (setInsert s acc)
    | _ => .error .badCast

/-- `claim::as_set`: requires an array whose elements are all strings,
collapses duplicates with `std::set` semantics. -/
def asSet : JsonValue → Except VErr (List String)
  | .array xs => asSetGo xs []
  | _ => .error .badCast

/-! ## Claim maps (`std::unordered_map<std::string, claim>`)

A map is an association list with unique keys; the list order is an
(unobservable) refinement of the container's unspecified iteration
order. -/

/-- Map lookup (`count`/`at`). -/
def mapFind (k : String) : List (String × JsonValue) → Option JsonValue
  | [] => none
  | e :: rest => if e.1 = k then some e.2 else mapFind k rest

/-- `operator[]=` assignment: replace the value if the key is present,
append otherwise. -/
def mapInsert (k : String) (v : JsonValue) :
    List (String × JsonValue) → List (String × JsonValue)
  | [] => [(k, v)]
  | e :: rest => if e.1 = k then (k, v) :: rest else e :: mapInsert k v rest

/-- `unordered_map::insert` applied to every entry of a parsed JSON
object in order (`parse_claims`): `insert` does *not* overwrite, so the
first occurrence of each key wins. -/
def claimsOf (kvs : List (String × JsonValue)) : List (String × JsonValue) :=
  go kvs []
where
  go : List (String × JsonValue) → List (String × JsonValue) →
      List (String × JsonValue)
    | [], acc => acc
    | e :: rest, acc =>
      go rest (if (mapFind e.1 acc).isSome then acc else acc ++ [e])

/-! ## base64url codec

Modelled from the spec: the codec lives in `base.h`, which is not part of
`src/`; the spec fixes the URL-safe alphabet (`A–Z a–z 0–9 - _`) with
fill character `'='`, and `decode` fails on any character outside the
alphabet. -/

/-- Alphabet character (as a byte) for a 6-bit group. -/
def encB (v : Nat) : Nat :=
  if v < 26 then 65 + v
  else if v < 52 then 97 + (v - 26)
  else if v < 62 then 48 + (v - 52)
  else if v = 62 then 45
  else 95

/-- Inverse alphabet lookup; `none` on a byte outside the alphabet. -/
def valB (c : Nat) : Option Nat :=
  if 65 ≤ c ∧ c ≤ 90 then some (c - 65)
  else if 97 ≤ c ∧ c ≤ 122 then some (26 + (c - 97))
  else if 48 ≤ c ∧ c ≤ 57 then some (52 + (c - 48))
  else if c = 45 then some 62
  else if c = 95 then some 63
  else none

/-- base64url encoding with fill characters. -/
def b64encode : List Nat → List Nat
  | [] => []
  | [b0] => [encB (b0 / 4), encB (b0 % 4 * 16), fillByte, fillByte]
  | [b0, b1] =>
    [encB (b0 / 4), encB (b0 % 4 * 16 + b1 / 16), encB (b1 % 16 * 4), fillByte]
  | b0 :: b1 :: b2 :: rest =>
    encB (b0 / 4) :: encB (b0 % 4 * 16 + b1 / 16) ::
      encB (b1 % 16 * 4 + b2 / 64) :: encB (b2 % 64) :: b64encode rest

/-- base64url decoding of a fill-padded string (length a multiple of 4);
fails on any character outside the alphabet and on fill characters other
than the final one or two. -/
def b64decode : List Nat → Option (List Nat)
  | [] => some []
  | c0 :: c1 :: c2 :: c3 :: rest =>
    match valB c0, valB c1 with
    | some v0, some v1 =>
      if c2 = fillByte then
        if c3 = fillByte ∧ rest = [] then some [v0 * 4 + v1 / 16] else none
      else
        match valB c2 with
        | some v2 =>
          if c3 = fillByte then
            if rest = [] then some [v0 * 4 + v1 / 16, v1 % 16 * 16 + v2 / 4]
            else none
          else
            match valB c3 with
            | some v3 =>
              match b64decode rest with
              | some tail =>
                some ((v0 * 4 + v1 / 16) :: (v1 % 16 * 16 + v2 / 4) ::
                  (v2 % 4 * 64 + v3) :: tail)
              | none => none
            | none => none
        | none => none
    | _, _ => none
  | _ => none

/-! ## Token decoding (`decoded_jwt::decoded_jwt`) -/

/-- `std::string::find(c, start)` restricted to `start = 0` via `drop`:
index of the first occurrence of `c` in `s`, or `none`. -/
def findIdx (c : Nat) : List Nat → Option Nat
  | [] => none
  | x :: xs => if x = c then some 0 else (findIdx c xs).map (· + 1)

/-- `token.find('.', start)`. -/
def findFrom (c : Nat) (s : List Nat) (start : Nat) : Option Nat :=
  (findIdx c (s.drop start)).map (· + start)

/-- The `fix_padding` lambda: right-pad with the fill character according
to `size % 4` — remainder 1 falls through all three `case` labels and
gains three fills, remainder 2 gains two, remainder 3 gains one. -/
def fixPadding (s : List Nat) : List Nat :=
  match s.length % 4 with
  | 1 => s ++ [fillByte, fillByte, fillByte]
  | 2 => s ++ [fillByte, fillByte]
  | 3 => s ++ [fillByte]
  | _ => s

/-- The splitting phase of the `decoded_jwt` constructor: locate the first
two `'.'` bytes, fail with `std::invalid_argument` when either is absent,
and cut the token into the three raw segments (everything after the second
dot is the signature segment verbatim). -/
def splitJwt (token : List Nat) :
    Except DecodeErr (List Nat × List Nat × List Nat) :=
  match findFrom dotByte token 0 with
  | none => .error .invalidToken
  | some hdrEnd =>
    match findFrom dotByte token (hdrEnd + 1) with
    | none => .error .invalidToken
    | some payloadEnd =>
      .ok (token.take hdrEnd,
        (token.drop (hdrEnd + 1)).take (payloadEnd - hdrEnd - 1),
        token.drop (payloadEnd + 1))

/-- Modelled from the spec: `picojson::value::get<picojson::object>()`
(picojson is an external collaborator, not under `src/`); per the spec's
decoding contract a non-object parse result is a DecodeError. -/
def getObject : JsonValue → Option (List (String × JsonValue))
  | .object kvs => some kvs
  | _ => none

/-- The `parse_claims` lambda: JSON-parse the decoded bytes (parse failure
throws `std::runtime_error("Invalid json")`), then `insert` every member
of the object into an `unordered_map`.  The JSON parser itself is the
external picojson codec and is a parameter `par`. -/
def parseClaims (par : List Nat → Option JsonValue) (s : List Nat) :
    Except DecodeErr (List (String × JsonValue)) :=
  match par s with
  | none => .error .invalidJson
  | some v =>
    match getObject v with
    | none => .error .invalidJson
    | some kvs => .ok (claimsOf kvs)

/-- Model of `class decoded_jwt`: the original token, the three raw
(still base64url-encoded) segments, the three decoded segments and the
parsed header/payload claim maps. -/
structure DecodedJwt where
  token : List Nat
  headerStr : List Nat
  headerB64 : List Nat
  payloadStr : List Nat
  payloadB64 : List Nat
  signature : List Nat
  signatureB64 : List Nat
  headerClaims : List (String × JsonValue)
  payloadClaims : List (String × JsonValue)

/-- The `decoded_jwt` constructor: split, fix padding, base64url-decode
every segment (failure throws `std::runtime_error`, the spec's
DecodeError), then JSON-parse header and payload; the decoded signature
bytes are stored raw and never parsed. -/
def decodeJwt (par : List Nat → Option JsonValue) (token : List Nat) :
    Except DecodeErr DecodedJwt :=
  match splitJwt token with
  | .error e => .error e
  | .ok (hB64, pB64, sB64) =>
    match b64decode (fixPadding hB64) with
    | none => .error .base64Error
    | some hStr =>
      match b64decode (fixPadding pB64) with
      | none => .error .base64Error
      | some pStr =>
        match b64decode (fixPadding sB64) with
        | none => .error .base64Error
        | some sStr =>
          match parseClaims par hStr with
          | .error e => .error e
          | .ok hClaims =>
            match parseClaims par pStr with
            | .error e => .error e
            | .ok pClaims =>
              .ok ⟨token, hStr, hB64, pStr, pB64, sStr, sB64,
                hClaims, pClaims⟩

/-! ## Header/payload accessors used by the verifier -/

/-- `payload::has_payload_claim`. -/
def hasPayloadClaim (name : String) (jwt : DecodedJwt) : Bool :=
  (mapFind name jwt.payloadClaims).isSome

/-- `header::get_algorithm`: `get_header_claim("alg").as_string()`;
a missing claim throws `std::runtime_error("claim not found")`. -/
def getAlgorithm (jwt : DecodedJwt) : Except VErr String :=
  match mapFind "alg" jwt.headerClaims with
  | none => .error .claimNotFound
  | some c => asString c

/-- `payload::get_audience`: a String `aud` becomes a singleton set,
otherwise `as_set()` applies. -/
def getAudience (jwt : DecodedJwt) : Except VErr (List String) :=
  match mapFind "aud" jwt.payloadClaims with
  | none => .error .claimNotFound
  | some c => if getType c = .string then asString c |>.map ([·]) else asSet c

/-- `get_payload_claim(name).as_date()` as epoch seconds (`exp`, `nbf`,
`iat` readers). -/
def getDateClaim (name : String) (jwt : DecodedJwt) : Except VErr Int :=
  match mapFind name jwt.payloadClaims with
  | none => .error .claimNotFound
  | some c => asInt c

/-! ## Builder (`class builder`) -/

/-- Builder state: header and payload claim maps. -/
structure Builder where
  headerClaims : List (String × JsonValue)
  payloadClaims : List (String × JsonValue)

/-- `builder::set_header_claim`. -/
def setHeaderClaim (id : String) (c : JsonValue) (b : Builder) : Builder :=
  { b with headerClaims := mapInsert id c b.headerClaims }

/-- `builder::set_payload_claim`. -/
def setPayloadClaim (id : String) (c : JsonValue) (b : Builder) : Builder :=
  { b with payloadClaims := mapInsert id c b.payloadClaims }

/-- `builder::set_algorithm`. -/
def setAlgorithm (s : String) (b : Builder) : Builder :=
  setHeaderClaim "alg" (.string s) b

/-- The `encode` lambda of `builder::sign`: base64url-encode, then keep
the prefix before the first fill character (`substr(0, find(fill))`). -/
def encodeStrip (data : List Nat) : List Nat :=
  let base := b64encode data
  match findIdx fillByte base with
  | none => base
  | some pos => base.take pos

/-- A signing algorithm as `builder::sign` consumes it:
`name()` and `sign(data)`. -/
structure SignAlg where
  algName : String
  signFn : List Nat → List Nat

/-- `builder::sign`: overwrite the `alg` header claim with the
algorithm's name, serialize both claim maps through the external JSON
codec `ser`, base64url-encode with fill stripped, sign
`header "." payload` and append the encoded signature. -/
def builderSign (ser : JsonValue → List Nat) (algo : SignAlg) (b : Builder) :
    List Nat :=
  let b := setAlgorithm algo.algName b
  let header := encodeStrip (ser (.object b.headerClaims))
  let payload := encodeStrip (ser (.object b.payloadClaims))
  let token := header ++ dotByte :: payload
  token ++ dotByte :: encodeStrip (algo.signFn token)

/-! ## Algorithms (`namespace algorithm`) -/

/-- `algorithm::none::sign`: always the empty signature. -/
def noneSign (_data : List Nat) : List Nat := []

/-- `algorithm::none::verify`: succeeds iff the signature is empty
(`true` = no exception thrown). -/
def noneVerify (_data sig : List Nat) : Bool := sig.isEmpty

/-- The mbedtls message-digest selector used by the HMAC family. -/
inductive MdType where
  | sha256
  | sha384
  | sha512
  deriving DecidableEq

/-- `hmacsha::sign`: the keyed hash of the data under the secret; the
primitive HMAC computation is the external mbedtls collaborator,
a parameter `prim`. -/
def hmacSign (prim : MdType → List Nat → List Nat → List Nat)
    (md : MdType) (secret data : List Nat) : List Nat :=
  prim md secret data

/-- The comparison loop of `hmacsha::verify`: for every index below
`min(res.size, signature.size)` compare the bytes and clear `matched` on a
difference, never exiting early.  The second component counts the byte
comparisons performed (one per loop iteration). -/
def cmpRun : List Nat → List Nat → Bool × Nat
  | a :: as, b :: bs =>
    let r := cmpRun as bs
    ((a == b) && r.1, r.2 + 1)
  | _, _ => (true, 0)

/-- `hmacsha::verify`: recompute the signature, run the full comparison
loop, then independently clear `matched` when the lengths differ; `true`
means no `signature_verification_exception` was thrown. -/
def hmacVerify (prim : MdType → List Nat → List Nat → List Nat)
    (md : MdType) (secret data sig : List Nat) : Bool :=
  let res := hmacSign prim md secret data
  let matched := (cmpRun res sig).1
  let matched := if res.length ≠ sig.length then false else matched
  matched

/-- `algorithm::hs256`: `hmacsha` with SHA-256 and name `"HS256"`. -/
def hs256Name : String := "HS256"

/-- `algorithm::hs384`: `hmacsha` with SHA-384 and name `"HS384"`. -/
def hs384Name : String := "HS384"

/-- `algorithm::hs512`: `hmacsha` with SHA-512 and name `"HS512"`. -/
def hs512Name : String := "HS512"

/-- Big-endian byte-string value, as `mbedtls_mpi_read_binary` computes
it. -/
def ofBytesBE (l : List Nat) : Nat :=
  l.foldl (fun acc b => acc * 256 + b) 0

/-- `ecdsa::raw2bn`: *import* a big-endian buffer into an mpi, prepending
a `0x00` byte first when the leading byte has the high bit set (the
prepended zero does not change the imported value). -/
def raw2bn (buf : List Nat) : Nat :=
  if 0x80 ≤ buf.headD 0 then ofBytesBE (0 :: buf) else ofBytesBE buf

/-- `ecdsa::sign`, translated statement by statement: `sig` is
default-constructed (empty) and never resized; `mbedtls_ecdsa_sign`
produces the scalars `r` and `s` and a status `ret`; the two `raw2bn`
calls then *read* the two halves of `sig` into the local mpi `r` (both
calls pass `&r`; `s` is never touched again); `ret ≠ 0` throws
`signature_generation_exception`; finally a single leading zero byte is
dropped when the buffer length is odd and the first byte is zero. -/
def ecdsaSign (r s : Nat) (ret : Int) : Except Unit (List Nat) :=
  let sig : List Nat := []
  let _r := raw2bn (sig.take (sig.length / 2))
  let _r := raw2bn ((sig.drop (sig.length / 2)).take (sig.length / 2))
  let _unused := (r, s, _r)
  if ret ≠ 0 then .error ()
  else if sig.length % 2 = 1 ∧ sig.headD 1 = 0 then .ok (sig.drop 1)
  else .ok sig

/-- The raw/IEEE-P1363 JOSE serialization the spec describes, written
from the spec's words for comparison with `ecdsaSign`: each of `r` and
`s` independently as a fixed-width big-endian integer of the curve-order
byte length, concatenated. -/
def natToBytesBE (len n : Nat) : List Nat :=
  (List.range len).reverse.map (fun i => n / 256 ^ i % 256)

/-- Spec-side reference serialization for an ECDSA signature pair. -/
def specP1363 (orderLen r s : Nat) : List Nat :=
  natToBytesBE orderLen r ++ natToBytesBE orderLen s

/-! ## Verifier (`class verifier`) -/

/-- Verifier state: the shared required-claim/leeway map `claims`, the
default leeway and the registered algorithm whitelist `algs`
(name → the type-erased `algo_base::verify`, `true` = no exception). -/
structure Verifier where
  claims : List (String × JsonValue)
  defaultLeeway : Nat
  algs : List (String × (List Nat → List Nat → Bool))

/-- `verifier::with_claim`: store an expected claim (also the storage
route of the three leeway overrides). -/
def withClaim (name : String) (c : JsonValue) (v : Verifier) : Verifier :=
  { v with claims := mapInsert name c v.claims }

/-- `std::chrono::system_clock::from_time_t` applied to a `size_t`
leeway: the value is converted to the signed 64-bit `time_t`
(two's-complement wrap-around for values ≥ 2^63). -/
def toTimeT (n : Nat) : Int :=
  ((n : Int) + 2 ^ 63) % 2 ^ 64 - 2 ^ 63

/-- `verifier::expires_at_leeway`: stores the leeway as the required
claim `"exp"`. -/
def expiresAtLeeway (n : Nat) (v : Verifier) : Verifier :=
  withClaim "exp" (.int64 (toTimeT n)) v

/-- `verifier::not_before_leeway`: stores the leeway as the required
claim `"nbf"`. -/
def notBeforeLeeway (n : Nat) (v : Verifier) : Verifier :=
  withClaim "nbf" (.int64 (toTimeT n)) v

/-- `verifier::issued_at_leeway`: stores the leeway as the required
claim `"iat"`. -/
def issuedAtLeeway (n : Nat) (v : Verifier) : Verifier :=
  withClaim "iat" (.int64 (toTimeT n)) v

/-- `operator[]=` assignment on the algorithm registry. -/
def algInsert (k : String) (f : List Nat → List Nat → Bool) :
    List (String × (List Nat → List Nat → Bool)) →
    List (String × (List Nat → List Nat → Bool))
  | [] => [(k, f)]
  | e :: rest => if e.1 = k then (k, f) :: rest else e :: algInsert k f rest

/-- `verifier::allow_algorithm`: register a verify callback under the
algorithm's name (`algs[alg.name()] = ...`). -/
def allowAlgorithm (name : String) (verifyFn : List Nat → List Nat → Bool)
    (v : Verifier) : Verifier :=
  { v with algs := algInsert name verifyFn v.algs }

/-- Sequencing of two checks that throw: the first exception wins. -/
def seqE (a b : Except VErr Unit) : Except VErr Unit :=
  match a with
  | .ok _ => b
  | .error e => .error e

/-- Algorithm lookup used by `v.algs` (same association-list lookup as
the claim maps, keys are algorithm names). -/
def algFind (k : String) : List (String × (List Nat → List Nat → Bool)) →
    Option (List Nat → List Nat → Bool)
  | [] => none
  | e :: rest => if e.1 = k then some e.2 else algFind k rest

/-- The leeway selection of each time check:
`claims.count(name) == 1 ? to_time_t(claims.at(name).as_date()) :
default_leeway`. -/
def leewayFor (v : Verifier) (name : String) : Except VErr Int :=
  match mapFind name v.claims with
  | some c => asInt c
  | none => .ok (v.defaultLeeway : Int)

/-- The `exp` time check: only runs when the claim is present; fails with
`token_verification_exception("token expired")` when
`now > exp + leeway`. -/
def checkExp (v : Verifier) (now : Int) (jwt : DecodedJwt) :
    Except VErr Unit :=
  if hasPayloadClaim "exp" jwt then
    match leewayFor v "exp" with
    | .error e => .error e
    | .ok lee =>
      match getDateClaim "exp" jwt with
      | .error e => .error e
      | .ok exp => if now > exp + lee then .error .tokenExpired else .ok ()
  else .ok ()

/-- The `iat` time check: fails with `"token expired"` when
`now < iat - leeway`. -/
def checkIat (v : Verifier) (now : Int) (jwt : DecodedJwt) :
    Except VErr Unit :=
  if hasPayloadClaim "iat" jwt then
    match leewayFor v "iat" with
    | .error e => .error e
    | .ok lee =>
      match getDateClaim "iat" jwt with
      | .error e => .error e
      | .ok iat => if now < iat - lee then .error .tokenExpired else .ok ()
  else .ok ()

/-- The `nbf` time check: note that the source throws the *same*
`token_verification_exception("token expired")` as the `exp` check. -/
def checkNbf (v : Verifier) (now : Int) (jwt : DecodedJwt) :
    Except VErr Unit :=
  if hasPayloadClaim "nbf" jwt then
    match leewayFor v "nbf" with
    | .error e => .error e
    | .ok lee =>
      match getDateClaim "nbf" jwt with
      | .error e => .error e
      | .ok nbf => if now < nbf - lee then .error .tokenExpired else .ok ()
  else .ok ()

/-- The `assert_claim_eq` lambda: the claim must be present, of the same
variant as the expected value, and equal under the variant-appropriate
comparison; an expected value that is not a date, array or string throws
`token_verification_exception("internal error")`. -/
def assertClaimEq (jwt : DecodedJwt) (key : String) (c : JsonValue) :
    Except VErr Unit :=
  if hasPayloadClaim key jwt = false then .error (.missingClaim key)
  else
    match mapFind key jwt.payloadClaims with
    | none => .error (.missingClaim key)
    | some jc =>
      if getType jc ≠ getType c then .error (.typeMismatch key)
      else
        match c with
        | .int64 n =>
          match asInt jc with
          | .error e => .error e
          | .ok m => if n ≠ m then .error (.claimMismatch key) else .ok ()
        | .array _ =>
          match asSet c with
          | .error e => .error e
          | .ok s1 =>
            match asSet jc with
            | .error e => .error e
            | .ok s2 =>
              if s1.length ≠ s2.length then .error (.claimMismatch key)
              else if s1 ≠ s2 then .error (.claimMismatch key)
              else .ok ()
        | .string s =>
          match asString jc with
          | .error e => .error e
          | .ok t => if s ≠ t then .error (.claimMismatch key) else .ok ()
        | _ => .error .internalError

/-- The `aud` branch of the required-claims loop: the token must carry an
audience, and every expected audience must be contained in the token's
audience set (`aud.count(e) == 0` throws). -/
def checkAudience (jwt : DecodedJwt) (expectedClaim : JsonValue) :
    Except VErr Unit :=
  if hasPayloadClaim "aud" jwt = false then .error .missingAudience
  else
    match getAudience jwt with
    | .error e => .error e
    | .ok aud =>
      match asSet expectedClaim with
      | .error e => .error e
      | .ok expected =>
        if expected.all (fun e => aud.contains e) then .ok ()
        else .error .missingAudience

/-- One iteration of the required-claims loop: `exp`/`iat`/`nbf` are
skipped ("already checked"), `aud` gets the superset check, everything
else goes through `assert_claim_eq`. -/
def checkOne (jwt : DecodedJwt) (kc : String × JsonValue) :
    Except VErr Unit :=
  if kc.1 = "exp" ∨ kc.1 = "iat" ∨ kc.1 = "nbf" then .ok ()
  else if kc.1 = "aud" then checkAudience jwt kc.2
  else assertClaimEq jwt kc.1 kc.2

/-- The required-claims loop over the verifier's `claims` map. -/
def checkClaims (jwt : DecodedJwt) :
    List (String × JsonValue) → Except VErr Unit
  | [] => .ok ()
  | kc :: rest => seqE (checkOne jwt kc) (checkClaims jwt rest)

/-- The signing input reconstructed by `verifier::verify`: the raw
(still-encoded) header segment, a dot, and the raw payload segment. -/
def signingInput (jwt : DecodedJwt) : List Nat :=
  jwt.headerB64 ++ dotByte :: jwt.payloadB64

/-- `verifier::verify`: resolve the token's `alg` against the registered
whitelist (absent name throws `"wrong algorithm"`), run the resolved
algorithm's `verify` on the signing input and the decoded signature
bytes, then the three time checks, then the required-claims loop. -/
def verifierVerify (v : Verifier) (now : Int) (jwt : DecodedJwt) :
    Except VErr Unit :=
  match getAlgorithm jwt with
  | .error e => .error e
  | .ok algo =>
    match algFind algo v.algs with
    | none => .error .wrongAlgorithm
    | some verifyFn =>
      if verifyFn (signingInput jwt) jwt.signature = false then
        .error .invalidSignature
      else
        seqE (checkExp v now jwt)
          (seqE (checkIat v now jwt)
            (seqE (checkNbf v now jwt) (checkClaims jwt v.claims)))

/-! ## Spec-side definitions and concrete fixtures -/

deriving instance DecidableEq for Except

/-- "Trailing fill characters stripped", written from the spec's words:
drop the maximal run of fill characters at the end. -/
def stripFillsEnd (l : List Nat) : List Nat :=
  (l.reverse.dropWhile (fun c => c = fillByte)).reverse

/-- The spec's `leeway(name)`: the stored override when set (its epoch
seconds), otherwise the default leeway. -/
def specLeeway (v : Verifier) (name : String) : Int :=
  match mapFind name v.claims with
  | some (.int64 l) => l
  | _ => (v.defaultLeeway : Int)

/-- The spec's `exp` violation: `now > exp + leeway(exp)` with the claim
present. -/
def expViolated (v : Verifier) (now : Int) (jwt : DecodedJwt) : Prop :=
  ∃ t : Int, mapFind "exp" jwt.payloadClaims = some (.int64 t) ∧
    now > t + specLeeway v "exp"

/-- The spec's `iat` violation: `now < iat - leeway(iat)` with the claim
present. -/
def iatViolated (v : Verifier) (now : Int) (jwt : DecodedJwt) : Prop :=
  ∃ t : Int, mapFind "iat" jwt.payloadClaims = some (.int64 t) ∧
    now < t - specLeeway v "iat"

/-- The spec's `nbf` violation: `now < nbf - leeway(nbf)` with the claim
present. -/
def nbfViolated (v : Verifier) (now : Int) (jwt : DecodedJwt) : Prop :=
  ∃ t : Int, mapFind "nbf" jwt.payloadClaims = some (.int64 t) ∧
    now < t - specLeeway v "nbf"

/-- The `exp`/`iat`/`nbf` payload claims, when present, are int64 dates
(the well-formedness every time check needs before comparing). -/
def timeClaimsInt (jwt : DecodedJwt) : Prop :=
  ∀ name, (name = "exp" ∨ name = "iat" ∨ name = "nbf") →
    ∀ c, mapFind name jwt.payloadClaims = some c → ∃ t : Int, c = .int64 t

/-- The leeway overrides stored in the verifier's claim map, when
present, are int64 seconds (what the three leeway setters store). -/
def overridesInt (v : Verifier) : Prop :=
  ∀ name, (name = "exp" ∨ name = "iat" ∨ name = "nbf") →
    ∀ c, mapFind name v.claims = some c → ∃ t : Int, c = .int64 t

/-- A decoded token built directly from its claim maps (the verifier
accepts any decoded token value); raw segments empty. -/
def exampleJwt (alg : String) (payload : List (String × JsonValue)) :
    DecodedJwt :=
  ⟨[], [], [], [], [], [], [], [("alg", .string alg)], payload⟩

/-- A trivial injective JSON codec over the two objects a concrete
round trip touches (serializer side); stands in for picojson in
witnesses. -/
def toySer (v : JsonValue) : List Nat :=
  match v with
  | .object [("alg", .string "none")] => [0]
  | .object [] => [1]
  | _ => [2]

/-- Parser side of the trivial witness codec. -/
def toyPar (s : List Nat) : Option JsonValue :=
  match s with
  | [0] => some (.object [("alg", .string "none")])
  | [1] => some (.object [])
  | _ => none

/-- The `none` algorithm packaged for `builder::sign`. -/
def toyAlg : SignAlg := ⟨"none", noneSign⟩

/-! ## Helper lemmas -/

theorem mapFind_mapInsert_self (k : String) (c : JsonValue) :
    ∀ m, mapFind k (mapInsert k c m) = some c := by
  intro m
  induction m with
  | nil => simp [mapFind, mapInsert]
  | cons e rest ih =>
    by_cases h : e.1 = k
    · simp [mapFind, mapInsert, h]
    · simp [mapFind, mapInsert, h, ih]

theorem mapInsert_mapInsert_same (k : String) (c1 c2 : JsonValue) :
    ∀ m, mapInsert k c2 (mapInsert k c1 m) = mapInsert k c2 m := by
  intro m
  induction m with
  | nil => simp [mapInsert]
  | cons e rest ih =>
    by_cases h : e.1 = k
    · simp [mapInsert, h]
    · simp [mapInsert, h, ih]

theorem mem_setInsert (x s : String) :
    ∀ l, x ∈ setInsert s l ↔ x = s ∨ x ∈ l := by
  intro l
  induction l with
  | nil => simp [setInsert]
  | cons y ys ih =>
    unfold setInsert
    by_cases h1 : strLt s y = true
    · simp [h1]
    · by_cases h2 : s = y
      · subst h2
        simp [h1]
        try tauto
      · simp [h1, h2, ih]
        try tauto

theorem parseClaims_ok {par : List Nat → Option JsonValue} {s : List Nat}
    {res : List (String × JsonValue)} (h : parseClaims par s = .ok res) :
    ∃ kvs, par s = some (.object kvs) ∧ res = claimsOf kvs := by
  unfold parseClaims at h
  cases hp : par s with
  | none => rw [hp] at h; cases h
  | some v =>
    rw [hp] at h
    cases v with
    | object kvs =>
      simp [getObject] at h
      exact ⟨kvs, rfl, h.symm⟩
    | null => simp [getObject] at h
    | boolean b => simp [getObject] at h
    | int64 n => simp [getObject] at h
    | number q => simp [getObject] at h
    | string t => simp [getObject] at h
    | array xs => simp [getObject] at h

theorem asSetGo_ok_of_strings :
    ∀ (xs : List JsonValue) (acc : List String),
      (∀ x ∈ xs, ∃ t, x = JsonValue.string t) →
      ∃ l, asSetGo xs acc = .ok l ∧
        ∀ y, y ∈ l ↔ JsonValue.string y ∈ xs ∨ y ∈ acc := by
  intro xs
  induction xs with
  | nil =>
    intro acc _
    exact ⟨acc, rfl, by simp⟩
  | cons x rest ih =>
    intro acc hstr
    obtain ⟨t, rfl⟩ := hstr x (List.mem_cons_self _ _)
    obtain ⟨l, hl, hmem⟩ := ih (setInsert t acc)
      (fun y hy => hstr y (List.mem_cons_of_mem _ hy))
    refine ⟨l, by simpa [asSetGo] using hl, fun y => ?_⟩
    rw [hmem y, mem_setInsert]
    simp [JsonValue.string.injEq]
    tauto

theorem cmpRun_count : ∀ a b : List Nat,
    (cmpRun a b).2 = min a.length b.length := by
  intro a
  induction a with
  | nil => intro b; cases b <;> simp [cmpRun]
  | cons x xs ih =>
    intro b
    cases b with
    | nil => simp [cmpRun]
    | cons y ys => simp [cmpRun, ih ys, Nat.succ_min_succ]

theorem cmpRun_matched : ∀ a b : List Nat,
    ((cmpRun a b).1 = true ∧ a.length = b.length) ↔ a = b := by
  intro a
  induction a with
  | nil =>
    intro b
    cases b <;> simp [cmpRun]
  | cons x xs ih =>
    intro b
    cases b with
    | nil => simp [cmpRun]
    | cons y ys =>
      constructor
      · rintro ⟨h1, h2⟩
        simp only [cmpRun, Bool.and_eq_true, beq_iff_eq] at h1
        have := (ih ys).mp ⟨h1.2, by simpa using h2⟩
        simp [h1.1, this]
      · intro h
        injection h with h1 h2
        subst h1; subst h2
        refine ⟨?_, rfl⟩
        simp only [cmpRun, Bool.and_eq_true, beq_iff_eq]
        exact ⟨by simp, ((ih xs).mpr rfl).1⟩

theorem findIdx_not_mem {c : Nat} :
    ∀ {l : List Nat}, c ∉ l → findIdx c l = none := by
  intro l
  induction l with
  | nil => intro; rfl
  | cons x xs ih =>
    intro h
    have hx : x ≠ c := fun e => h (e ▸ List.mem_cons_self x xs)
    have hxs : c ∉ xs := fun m => h (List.mem_cons_of_mem x m)
    simp [findIdx, hx, ih hxs]

theorem findIdx_append_cons {c : Nat} :
    ∀ {h : List Nat}, c ∉ h → ∀ s, findIdx c (h ++ c :: s) = some h.length := by
  intro h
  induction h with
  | nil => intro _ s; simp [findIdx]
  | cons x xs ih =>
    intro hm s
    have hx : x ≠ c := fun e => hm (e ▸ List.mem_cons_self x xs)
    have hxs : c ∉ xs := fun m => hm (List.mem_cons_of_mem x m)
    simp [findIdx, hx, ih hxs s]

theorem splitJwt_append {h p s : List Nat}
    (hh : dotByte ∉ h) (hp : dotByte ∉ p) :
    splitJwt (h ++ dotByte :: (p ++ dotByte :: s)) = .ok (h, p, s) := by
  have h1 : findFrom dotByte (h ++ dotByte :: (p ++ dotByte :: s)) 0 =
      some h.length := by
    simp [findFrom, findIdx_append_cons hh]
  have hdrop : (h ++ dotByte :: (p ++ dotByte :: s)).drop (h.length + 1) =
      p ++ dotByte :: s := by
    rw [show h.length + 1 = h.length + 1 from rfl, ← List.drop_drop,
      List.drop_left]
    rfl
  have h2 : findFrom dotByte (h ++ dotByte :: (p ++ dotByte :: s))
      (h.length + 1) = some (p.length + (h.length + 1)) := by
    simp [findFrom, hdrop, findIdx_append_cons hp]
  have e1 : (h ++ dotByte :: (p ++ dotByte :: s)).take h.length = h := by
    rw [List.take_left]
  have e2 : ((h ++ dotByte :: (p ++ dotByte :: s)).drop (h.length + 1)).take
      (p.length + (h.length + 1) - h.length - 1) = p := by
    rw [hdrop]
    have : p.length + (h.length + 1) - h.length - 1 = p.length := by omega
    rw [this, List.take_left]
  have e3 : (h ++ dotByte :: (p ++ dotByte :: s)).drop
      (p.length + (h.length + 1) + 1) = s := by
    have hsum : p.length + (h.length + 1) + 1 =
        (h.length + 1) + (p.length + 1) := by omega
    rw [hsum, ← List.drop_drop, hdrop]
    have : (p ++ dotByte :: s).drop (p.length + 1) = s := by
      rw [← List.drop_drop, List.drop_left]
      rfl
    exact this
  simp only [splitJwt, h1, h2, e1, e2, e3]

theorem fixPadding_eq (s : List Nat) :
    fixPadding s = s ++ List.replicate ((4 - s.length % 4) % 4) fillByte := by
  have h : s.length % 4 = 0 ∨ s.length % 4 = 1 ∨ s.length % 4 = 2 ∨
      s.length % 4 = 3 := by omega
  rcases h with h | h | h | h <;>
    simp [fixPadding, h, List.replicate]

theorem encB_ne (v : Nat) : encB v ≠ fillByte ∧ encB v ≠ dotByte := by
  unfold encB fillByte dotByte
  split_ifs <;> omega

theorem b64encode_shape : ∀ bs : List Nat, ∃ t k,
    b64encode bs = t ++ List.replicate k fillByte ∧
    (∀ c ∈ t, c ≠ fillByte ∧ c ≠ dotByte) ∧
    (t.length + k) % 4 = 0 ∧ k < 4 := by
  intro bs
  induction bs using b64encode.induct with
  | case1 =>
    exact ⟨[], 0, rfl, by simp, by simp, by omega⟩
  | case2 b0 =>
    refine ⟨[encB (b0 / 4), encB (b0 % 4 * 16)], 2, rfl, ?_, by simp, by omega⟩
    intro c hc
    simp at hc
    rcases hc with rfl | rfl <;> exact encB_ne _
  | case3 b0 b1 =>
    refine ⟨[encB (b0 / 4), encB (b0 % 4 * 16 + b1 / 16),
      encB (b1 % 16 * 4)], 1, rfl, ?_, by simp, by omega⟩
    intro c hc
    simp at hc
    rcases hc with rfl | rfl | rfl <;> exact encB_ne _
  | case4 b0 b1 b2 rest ih =>
    obtain ⟨t, k, he, hmem, hlen, hk⟩ := ih
    refine ⟨encB (b0 / 4) :: encB (b0 % 4 * 16 + b1 / 16) ::
      encB (b1 % 16 * 4 + b2 / 64) :: encB (b2 % 64) :: t, k, ?_, ?_, ?_, hk⟩
    · simp [b64encode, he]
    · intro c hc
      simp at hc
      rcases hc with rfl | rfl | rfl | rfl | hc
      · exact encB_ne _
      · exact encB_ne _
      · exact encB_ne _
      · exact encB_ne _
      · exact hmem c hc
    · simp only [List.length_cons]
      omega

theorem stripFillsEnd_append (t : List Nat) (k : Nat) (h : fillByte ∉ t) :
    stripFillsEnd (t ++ List.replicate k fillByte) = t := by
  unfold stripFillsEnd
  rw [List.reverse_append, List.reverse_replicate]
  have hrep : List.dropWhile (fun c => decide (c = fillByte))
      (List.replicate k fillByte ++ t.reverse) =
      List.dropWhile (fun c => decide (c = fillByte)) t.reverse := by
    induction k with
    | zero => simp
    | succ n ih =>
      rw [List.replicate_succ, List.cons_append, List.dropWhile_cons]
      simp [ih]
  rw [hrep]
  cases htr : t.reverse with
  | nil =>
    have : t = [] := by simpa using congrArg List.reverse htr
    simp [this]
  | cons x xs =>
    have hx : ¬(x = fillByte) := by
      intro e
      exact h (e ▸ List.mem_reverse.mp (htr ▸ List.mem_cons_self x xs))
    rw [List.dropWhile_cons]
    simp only [hx, decide_False, Bool.false_eq_true, if_false]
    rw [← htr, List.reverse_reverse]

theorem encodeStrip_spec (data : List Nat) :
    encodeStrip data = stripFillsEnd (b64encode data) ∧
    dotByte ∉ encodeStrip data ∧
    fixPadding (encodeStrip data) = b64encode data := by
  obtain ⟨t, k, he, hmem, hlen, hk⟩ := b64encode_shape data
  have hfill : fillByte ∉ t := fun hm => (hmem _ hm).1 rfl
  have hstrip : encodeStrip data = t := by
    unfold encodeStrip
    rw [he]
    cases k with
    | zero =>
      simp only [List.replicate_zero, List.append_nil, findIdx_not_mem hfill]
    | succ k' =>
      simp only [List.replicate_succ, findIdx_append_cons hfill]
      simp [List.take_left]
  refine ⟨?_, ?_, ?_⟩
  · rw [hstrip, he, stripFillsEnd_append t k hfill]
  · rw [hstrip]
    exact fun hm => (hmem _ hm).2 rfl
  · rw [hstrip, fixPadding_eq, he]
    have : (4 - t.length % 4) % 4 = k := by omega
    rw [this]

theorem asInt_ne_expired (c : JsonValue) :
    asInt c ≠ .error .tokenExpired := by
  cases c <;> simp [asInt]

theorem asString_ne_expired (c : JsonValue) :
    asString c ≠ .error .tokenExpired := by
  cases c <;> simp [asString]

theorem asSetGo_ne_expired :
    ∀ (xs : List JsonValue) (acc : List String),
      asSetGo xs acc ≠ .error .tokenExpired := by
  intro xs
  induction xs with
  | nil => intro acc; simp [asSetGo]
  | cons x rest ih =>
    intro acc
    cases x <;> simp [asSetGo] <;> exact ih _

theorem asSet_ne_expired (c : JsonValue) :
    asSet c ≠ .error .tokenExpired := by
  cases c <;> simp [asSet] <;> exact asSetGo_ne_expired _ _

theorem getAudience_ne_expired (jwt : DecodedJwt) :
    getAudience jwt ≠ .error .tokenExpired := by
  unfold getAudience
  cases mapFind "aud" jwt.payloadClaims with
  | none => simp
  | some c =>
    by_cases hs : getType c = ClaimType.string
    · cases c <;> simp [getType] at hs <;> simp [getType, asString, Except.map]
    · simp [hs]
      exact asSet_ne_expired c

theorem assertClaimEq_ne_expired (jwt : DecodedJwt) (k : String)
    (c : JsonValue) : assertClaimEq jwt k c ≠ .error .tokenExpired := by
  unfold assertClaimEq
  repeat' split
  all_goals try simp
  all_goals
    rename_i heq
    intro h
    try injection h with h
    subst h
    first
      | exact asInt_ne_expired _ heq
      | exact asSet_ne_expired _ heq
      | exact asString_ne_expired _ heq

theorem checkAudience_ne_expired (jwt : DecodedJwt) (c : JsonValue) :
    checkAudience jwt c ≠ .error .tokenExpired := by
  unfold checkAudience
  repeat' split
  all_goals try simp
  all_goals
    rename_i heq
    intro h
    try injection h with h
    subst h
    first
      | exact getAudience_ne_expired _ heq
      | exact asSet_ne_expired _ heq

theorem checkOne_ne_expired (jwt : DecodedJwt) (kc : String × JsonValue) :
    checkOne jwt kc ≠ .error .tokenExpired := by
  unfold checkOne
  split
  · simp
  · split
    · exact checkAudience_ne_expired jwt kc.2
    · exact assertClaimEq_ne_expired jwt kc.1 kc.2

theorem checkClaims_ne_expired (jwt : DecodedJwt) :
    ∀ l, checkClaims jwt l ≠ .error .tokenExpired := by
  intro l
  induction l with
  | nil => simp [checkClaims]
  | cons kc rest ih =>
    unfold checkClaims seqE
    cases hco : checkOne jwt kc with
    | error e =>
      intro h
      injection h with h
      exact checkOne_ne_expired jwt kc (by rw [hco, h])
    | ok u => exact ih

theorem checkExp_spec (v : Verifier) (now : Int) (jwt : DecodedJwt)
    (hti : timeClaimsInt jwt) (hoi : overridesInt v) :
    (checkExp v now jwt = .error .tokenExpired ↔ expViolated v now jwt) ∧
    (checkExp v now jwt = .ok () ∨
      checkExp v now jwt = .error .tokenExpired) := by
  cases hfind : mapFind "exp" jwt.payloadClaims with
  | none =>
    have hp : hasPayloadClaim "exp" jwt = false := by
      simp [hasPayloadClaim, hfind]
    have hc : checkExp v now jwt = .ok () := by simp [checkExp, hp]
    rw [hc]
    refine ⟨⟨fun h => by simp at h, ?_⟩, Or.inl rfl⟩
    rintro ⟨t, ht, _⟩
    rw [hfind] at ht
    cases ht
  | some c =>
    obtain ⟨t, rfl⟩ := hti "exp" (by simp) c hfind
    have hp : hasPayloadClaim "exp" jwt = true := by
      simp [hasPayloadClaim, hfind]
    have hlee : leewayFor v "exp" = .ok (specLeeway v "exp") := by
      unfold leewayFor specLeeway
      cases hov : mapFind "exp" v.claims with
      | none => rfl
      | some c2 =>
        obtain ⟨L, rfl⟩ := hoi "exp" (by simp) c2 hov
        rfl
    have hdate : getDateClaim "exp" jwt = .ok t := by
      simp [getDateClaim, hfind, asInt]
    have hc : checkExp v now jwt =
        if now > t + specLeeway v "exp" then .error .tokenExpired
        else .ok () := by
      simp [checkExp, hp, hlee, hdate]
    rw [hc]
    have hviol : expViolated v now jwt ↔ now > t + specLeeway v "exp" := by
      unfold expViolated
      constructor
      · rintro ⟨t', ht', hcmp⟩
        rw [hfind] at ht'
        injection ht' with ht'
        injection ht' with ht'
        subst ht'
        exact hcmp
      · intro hcmp
        exact ⟨t, hfind, hcmp⟩
    by_cases hcmp : now > t + specLeeway v "exp" <;>
      simp [hcmp, hviol]

theorem checkIat_spec (v : Verifier) (now : Int) (jwt : DecodedJwt)
    (hti : timeClaimsInt jwt) (hoi : overridesInt v) :
    (checkIat v now jwt = .error .tokenExpired ↔ iatViolated v now jwt) ∧
    (checkIat v now jwt = .ok () ∨
      checkIat v now jwt = .error .tokenExpired) := by
  cases hfind : mapFind "iat" jwt.payloadClaims with
  | none =>
    have hp : hasPayloadClaim "iat" jwt = false := by
      simp [hasPayloadClaim, hfind]
    have hc : checkIat v now jwt = .ok () := by simp [checkIat, hp]
    rw [hc]
    refine ⟨⟨fun h => by simp at h, ?_⟩, Or.inl rfl⟩
    rintro ⟨t, ht, _⟩
    rw [hfind] at ht
    cases ht
  | some c =>
    obtain ⟨t, rfl⟩ := hti "iat" (by simp) c hfind
    have hp : hasPayloadClaim "iat" jwt = true := by
      simp [hasPayloadClaim, hfind]
    have hlee : leewayFor v "iat" = .ok (specLeeway v "iat") := by
      unfold leewayFor specLeeway
      cases hov : mapFind "iat" v.claims with
      | none => rfl
      | some c2 =>
        obtain ⟨L, rfl⟩ := hoi "iat" (by simp) c2 hov
        rfl
    have hdate : getDateClaim "iat" jwt = .ok t := by
      simp [getDateClaim, hfind, asInt]
    have hc : checkIat v now jwt =
        if now < t - specLeeway v "iat" then .error .tokenExpired
        else .ok () := by
      simp [checkIat, hp, hlee, hdate]
    rw [hc]
    have hviol : iatViolated v now jwt ↔ now < t - specLeeway v "iat" := by
      unfold iatViolated
      constructor
      · rintro ⟨t', ht', hcmp⟩
        rw [hfind] at ht'
        injection ht' with ht'
        injection ht' with ht'
        subst ht'
        exact hcmp
      · intro hcmp
        exact ⟨t, hfind, hcmp⟩
    by_cases hcmp : now < t - specLeeway v "iat" <;>
      simp [hcmp, hviol]

theorem checkNbf_spec (v : Verifier) (now : Int) (jwt : DecodedJwt)
    (hti : timeClaimsInt jwt) (hoi : overridesInt v) :
    (checkNbf v now jwt = .error .tokenExpired ↔ nbfViolated v now jwt) ∧
    (checkNbf v now jwt = .ok () ∨
      checkNbf v now jwt = .error .tokenExpired) := by
  cases hfind : mapFind "nbf" jwt.payloadClaims with
  | none =>
    have hp : hasPayloadClaim "nbf" jwt = false := by
      simp [hasPayloadClaim, hfind]
    have hc : checkNbf v now jwt = .ok () := by simp [checkNbf, hp]
    rw [hc]
    refine ⟨⟨fun h => by simp at h, ?_⟩, Or.inl rfl⟩
    rintro ⟨t, ht, _⟩
    rw [hfind] at ht
    cases ht
  | some c =>
    obtain ⟨t, rfl⟩ := hti "nbf" (by simp) c hfind
    have hp : hasPayloadClaim "nbf" jwt = true := by
      simp [hasPayloadClaim, hfind]
    have hlee : leewayFor v "nbf" = .ok (specLeeway v "nbf") := by
      unfold leewayFor specLeeway
      cases hov : mapFind "nbf" v.claims with
      | none => rfl
      | some c2 =>
        obtain ⟨L, rfl⟩ := hoi "nbf" (by simp) c2 hov
        rfl
    have hdate : getDateClaim "nbf" jwt = .ok t := by
      simp [getDateClaim, hfind, asInt]
    have hc : checkNbf v now jwt =
        if now < t - specLeeway v "nbf" then .error .tokenExpired
        else .ok () := by
      simp [checkNbf, hp, hlee, hdate]
    rw [hc]
    have hviol : nbfViolated v now jwt ↔ now < t - specLeeway v "nbf" := by
      unfold nbfViolated
      constructor
      · rintro ⟨t', ht', hcmp⟩
        rw [hfind] at ht'
        injection ht' with ht'
        injection ht' with ht'
        subst ht'
        exact hcmp
      · intro hcmp
        exact ⟨t, hfind, hcmp⟩
    by_cases hcmp : now < t - specLeeway v "nbf" <;>
      simp [hcmp, hviol]

theorem valB_encB : ∀ v : Nat, v < 64 → valB (encB v) = some v := by
  decide

theorem b64_roundtrip : ∀ bs : List Nat, (∀ b ∈ bs, b < 256) →
    b64decode (b64encode bs) = some bs := by
  intro bs
  induction bs using b64encode.induct with
  | case1 => intro _; rfl
  | case2 b0 =>
    intro hb
    have h0 : b0 < 256 := hb b0 (by simp)
    have e1 : valB (encB (b0 / 4)) = some (b0 / 4) := valB_encB _ (by omega)
    have e2 : valB (encB (b0 % 4 * 16)) = some (b0 % 4 * 16) :=
      valB_encB _ (by omega)
    simp [b64encode, b64decode, e1, e2]
    omega
  | case3 b0 b1 =>
    intro hb
    have h0 : b0 < 256 := hb b0 (by simp)
    have h1 : b1 < 256 := hb b1 (by simp)
    have e1 : valB (encB (b0 / 4)) = some (b0 / 4) := valB_encB _ (by omega)
    have e2 : valB (encB (b0 % 4 * 16 + b1 / 16)) =
        some (b0 % 4 * 16 + b1 / 16) := valB_encB _ (by omega)
    have e3 : valB (encB (b1 % 16 * 4)) = some (b1 % 16 * 4) :=
      valB_encB _ (by omega)
    simp [b64encode, b64decode, e1, e2, e3, (encB_ne (b1 % 16 * 4)).1]
    omega
  | case4 b0 b1 b2 rest ih =>
    intro hb
    have h0 : b0 < 256 := hb b0 (by simp)
    have h1 : b1 < 256 := hb b1 (by simp)
    have h2 : b2 < 256 := hb b2 (by simp)
    have hrest : ∀ b ∈ rest, b < 256 := fun b hm => hb b (by simp [hm])
    have e1 : valB (encB (b0 / 4)) = some (b0 / 4) := valB_encB _ (by omega)
    have e2 : valB (encB (b0 % 4 * 16 + b1 / 16)) =
        some (b0 % 4 * 16 + b1 / 16) := valB_encB _ (by omega)
    have e3 : valB (encB (b1 % 16 * 4 + b2 / 64)) =
        some (b1 % 16 * 4 + b2 / 64) := valB_encB _ (by omega)
    have e4 : valB (encB (b2 % 64)) = some (b2 % 64) :=
      valB_encB _ (by omega)
    simp [b64encode, b64decode, e1, e2, e3, e4, ih hrest,
      (encB_ne (b1 % 16 * 4 + b2 / 64)).1, (encB_ne (b2 % 64)).1]
    omega

theorem mapFind_append (k : String) :
    ∀ a b, mapFind k (a ++ b) =
      match mapFind k a with
      | some v => some v
      | none => mapFind k b := by
  intro a b
  induction a with
  | nil => simp [mapFind]
  | cons e rest ih =>
    by_cases h : e.1 = k <;> simp [mapFind, h, ih]

theorem claimsOf_go_nodup :
    ∀ (kvs acc : List (String × JsonValue)),
      (∀ e ∈ kvs, mapFind e.1 acc = none) →
      (kvs.map Prod.fst).Nodup →
      claimsOf.go kvs acc = acc ++ kvs := by
  intro kvs
  induction kvs with
  | nil =>
    intro acc _ _
    simp [claimsOf.go]
  | cons e rest ih =>
    intro acc hacc hnod
    have he : mapFind e.1 acc = none := hacc e (List.mem_cons_self _ _)
    have hnod' : (e.1 ∉ rest.map Prod.fst) ∧
        (rest.map Prod.fst).Nodup := by
      rw [List.map_cons, List.nodup_cons] at hnod
      exact hnod
    unfold claimsOf.go
    rw [he]
    simp only [Option.isSome_none, Bool.false_eq_true, if_false]
    rw [ih (acc ++ [e]) ?_ hnod'.2]
    · simp
    · intro e2 he2
      rw [mapFind_append, hacc e2 (List.mem_cons_of_mem _ he2)]
      have hke : ¬(e.1 = e2.1) := by
        intro hkeq
        exact hnod'.1 (hkeq ▸ List.mem_map_of_mem Prod.fst he2)
      simp [mapFind, hke]

theorem claimsOf_nodup (kvs : List (String × JsonValue))
    (h : (kvs.map Prod.fst).Nodup) : claimsOf kvs = kvs := by
  unfold claimsOf
  rw [claimsOf_go_nodup kvs [] (fun e _ => rfl) h]
  simp

theorem mem_mapInsert_keys (k : String) (c : JsonValue) (x : String) :
    ∀ m, x ∈ (mapInsert k c m).map Prod.fst ↔
      x = k ∨ x ∈ m.map Prod.fst := by
  intro m
  induction m with
  | nil => simp [mapInsert]
  | cons e rest ih =>
    by_cases h : e.1 = k
    · simp [mapInsert, h]
      try tauto
    · simp [mapInsert, h, ih]
      try tauto

theorem mapInsert_nodup (k : String) (c : JsonValue) :
    ∀ m, (m.map Prod.fst).Nodup →
      ((mapInsert k c m).map Prod.fst).Nodup := by
  intro m
  induction m with
  | nil => intro _; simp [mapInsert]
  | cons e rest ih =>
    intro hnod
    rw [List.map_cons, List.nodup_cons] at hnod
    by_cases h : e.1 = k
    · simp only [mapInsert, h, if_true]
      rw [List.map_cons, List.nodup_cons]
      exact ⟨h ▸ hnod.1, hnod.2⟩
    · simp only [mapInsert, h, if_false]
      rw [List.map_cons, List.nodup_cons]
      refine ⟨?_, ih hnod.2⟩
      rw [mem_mapInsert_keys]
      rintro (hek | hek)
      · exact h hek
      · exact hnod.1 hek

/-! ## Claim theorems -/

/-- C2: for every HMAC instance (any digest and secret), any data and
candidate signature, `hmacsha::verify` succeeds exactly when the
candidate equals the recomputed signature `sign(data)` — any byte or
length difference throws `signature_verification_exception` — and the
comparison loop performs exactly `min(len(expected), len(candidate))`
byte comparisons regardless of where (or whether) bytes differ, i.e. it
never short-circuits, while the length equality is checked
independently afterwards. -/
theorem hmac_verify_iff_eq (prim : MdType → List Nat → List Nat → List Nat)
    (md : MdType) (secret data sig : List Nat) :
    (hmacVerify prim md secret data sig = true ↔
      sig = hmacSign prim md secret data) ∧
    (cmpRun (hmacSign prim md secret data) sig).2 =
      min (hmacSign prim md secret data).length sig.length := by
  constructor
  · unfold hmacVerify
    set res := hmacSign prim md secret data with hres
    constructor
    · intro h
      by_cases hl : res.length = sig.length
      · simp only [hl, ne_eq, not_true_eq_false, if_false] at h
        exact ((cmpRun_matched res sig).mp ⟨by simpa [hl] using h, hl⟩).symm
      · simp [hl] at h
    · rintro rfl
      simp [(cmpRun_matched res res).mpr rfl]
  · exact cmpRun_count _ _

/-- C3 (code bug): `ecdsa::sign` never serializes `r` or `s` at all —
the output buffer is default-constructed empty and `raw2bn` *imports*
bytes from that empty buffer into the mpi `r` (both calls pass `&r`), so
for every signature pair the function returns the empty string, not the
spec's fixed-width big-endian `r ‖ s` (which for P-256 has 64 bytes). -/
theorem ecdsa_sign_returns_empty :
    (∀ r s : Nat, ecdsaSign r s 0 = .ok []) ∧
    (specP1363 32 1 2).length = 64 ∧ specP1363 32 1 2 ≠ [] := by
  refine ⟨fun r s => rfl, by decide, by decide⟩

/-- C7: decoding splits the token at the first and second `'.'` into
exactly three segments, the signature segment being everything after the
second dot verbatim (further dots included); fewer than two separators
(`"abc"`, `"a.b"`) throw the FormatError `std::invalid_argument`; an
invalid base64url segment (`"!!!.b.c"`) throws the DecodeError; and each
segment is right-padded with the fill character to a multiple of four,
remainder 1 being padded (with three fills) exactly like remainders
2 and 3 rather than rejected. -/
theorem decode_split_and_padding (par : List Nat → Option JsonValue) :
    (∀ h p s : List Nat, dotByte ∉ h → dotByte ∉ p →
      splitJwt (h ++ dotByte :: (p ++ dotByte :: s)) = .ok (h, p, s)) ∧
    decodeJwt par (bytes "abc") = .error .invalidToken ∧
    decodeJwt par (bytes "a.b") = .error .invalidToken ∧
    decodeJwt par (bytes "!!!.b.c") = .error .base64Error ∧
    (∀ s : List Nat,
      fixPadding s = s ++ List.replicate ((4 - s.length % 4) % 4) fillByte) ∧
    (∀ s : List Nat, s.length % 4 = 1 →
      fixPadding s = s ++ [fillByte, fillByte, fillByte]) := by
  refine ⟨fun h p s hh hp => splitJwt_append hh hp, rfl, rfl, rfl,
    fixPadding_eq, fun s hs => ?_⟩
  simp [fixPadding, hs]

/-- Witness for C7: a concrete split whose signature segment contains a
further dot, and a concrete remainder-1 segment gaining three fills. -/
theorem decode_split_and_padding_witness :
    splitJwt (bytes "aa.bb.c.d") = .ok (bytes "aa", bytes "bb", bytes "c.d") ∧
    fixPadding (bytes "a") = bytes "a===" := by
  constructor
  · have e : bytes "aa.bb.c.d" =
        bytes "aa" ++ dotByte :: (bytes "bb" ++ dotByte :: bytes "c.d") := by
      decide
    rw [e]
    exact (decode_split_and_padding (fun _ => none)).1 (bytes "aa")
      (bytes "bb") (bytes "c.d") (by decide) (by decide)
  · have e := (decode_split_and_padding (fun _ => none)).2.2.2.2.2
      (bytes "a") (by decide)
    rw [e]
    decide

/-- C1: `verifier::verify` resolves the token's `alg` header value
against the registered-algorithm map; an unregistered name fails with
`"wrong algorithm"` (UnsupportedAlgorithm) no matter what the signature,
time or content claims are, and when the name resolves, the algorithm's
`verify` runs on the raw signing input (encoded header ++ "." ++ encoded
payload) before any time or claim-content check: its failure yields
`signature_verification_exception` regardless of the remaining checks. -/
theorem verify_whitelist_and_order (v : Verifier) (now : Int)
    (jwt : DecodedJwt) (a : String) (ha : getAlgorithm jwt = .ok a) :
    (algFind a v.algs = none →
      verifierVerify v now jwt = .error .wrongAlgorithm) ∧
    (∀ verifyFn, algFind a v.algs = some verifyFn →
      verifyFn (signingInput jwt) jwt.signature = false →
      verifierVerify v now jwt = .error .invalidSignature) := by
  constructor
  · intro hn
    simp [verifierVerify, ha, hn]
  · intro f hf hv
    simp [verifierVerify, ha, hf, hv]

/-- Witness for C1: a verifier registering only HS256 rejects a token
whose header names HS384 with `"wrong algorithm"`, whatever its
signature and claims; with HS256 registered and a failing verify
callback the result is the signature error. -/
theorem verify_whitelist_and_order_witness :
    verifierVerify ⟨[], 0, [(hs256Name, fun _ _ => true)]⟩ 0
      (exampleJwt hs384Name [("sub", .string "x")]) =
      .error .wrongAlgorithm ∧
    verifierVerify ⟨[], 0, [(hs256Name, fun _ _ => false)]⟩ 0
      (exampleJwt hs256Name []) = .error .invalidSignature := by
  constructor
  · exact (verify_whitelist_and_order ⟨[], 0, [(hs256Name, fun _ _ => true)]⟩
      0 (exampleJwt hs384Name [("sub", .string "x")]) hs384Name rfl).1 rfl
  · exact (verify_whitelist_and_order ⟨[], 0, [(hs256Name, fun _ _ => false)]⟩
      0 (exampleJwt hs256Name []) hs256Name rfl).2 _ rfl rfl

/-- C8: the `aud` requirement check succeeds exactly when the token
carries an `aud` claim and its audience set (a String `aud` counting as
a singleton, an Array as its string-element set, per `get_audience`)
contains every expected audience — a superset test, so extra audiences
in the token are permitted and a missing `aud` claim fails. -/
theorem audience_superset_check (E : List String) (jwt : DecodedJwt)
    (hw : ∀ c, mapFind "aud" jwt.payloadClaims = some c →
      (∃ s, c = JsonValue.string s) ∨
      (∃ xs, c = JsonValue.array xs ∧
        ∀ x ∈ xs, ∃ t, x = JsonValue.string t)) :
    checkOne jwt ("aud", .array (E.map .string)) = .ok () ↔
      ∃ aud, getAudience jwt = .ok aud ∧ ∀ e ∈ E, e ∈ aud := by
  have hone : checkOne jwt ("aud", .array (E.map .string)) =
      checkAudience jwt (.array (E.map .string)) := by
    simp [checkOne]
  rw [hone]
  cases hfind : mapFind "aud" jwt.payloadClaims with
  | none =>
    have hhas : hasPayloadClaim "aud" jwt = false := by
      simp [hasPayloadClaim, hfind]
    simp [checkAudience, hhas, getAudience, hfind]
  | some c =>
    have hhas : hasPayloadClaim "aud" jwt = true := by
      simp [hasPayloadClaim, hfind]
    have haud : ∃ aud, getAudience jwt = .ok aud := by
      rcases hw c hfind with ⟨s, rfl⟩ | ⟨xs, rfl, hxs⟩
      · exact ⟨[s], by simp [getAudience, hfind, getType, asString, Except.map]⟩
      · obtain ⟨l, hl, _⟩ := asSetGo_ok_of_strings xs [] hxs
        exact ⟨l, by simp [getAudience, hfind, getType, asSet, hl]⟩
    obtain ⟨aud, haudeq⟩ := haud
    obtain ⟨EE, hEE, hmemEE⟩ := asSetGo_ok_of_strings (E.map .string) []
      (by intro x hx; simp [List.mem_map] at hx; obtain ⟨t, _, rfl⟩ := hx;
          exact ⟨t, rfl⟩)
    have hset : asSet (JsonValue.array (E.map .string)) = .ok EE := by
      simpa [asSet] using hEE
    have hred : checkAudience jwt (.array (E.map .string)) =
        (if EE.all (fun e => aud.contains e) then (.ok () : Except VErr Unit)
          else .error .missingAudience) := by
      simp [checkAudience, hhas, haudeq, hset]
    rw [hred]
    have hmemE : ∀ y, y ∈ EE ↔ y ∈ E := by
      intro y
      rw [hmemEE y]
      simp [List.mem_map]
    by_cases hall : EE.all (fun e => aud.contains e) = true
    · simp only [hall, if_true]
      constructor
      · intro _
        refine ⟨aud, haudeq, fun e he => ?_⟩
        exact List.elem_iff.mp (List.all_eq_true.mp hall e ((hmemE e).mpr he))
      · intro _
        trivial
    · simp only [Bool.not_eq_true] at hall
      simp only [hall, Bool.false_eq_true, if_false]
      constructor
      · intro h
        simp at h
      · rintro ⟨aud2, haud2, hsup⟩
        rw [haudeq] at haud2
        injection haud2 with h2
        subst h2
        have htrue : EE.all (fun e => aud.contains e) = true :=
          List.all_eq_true.mpr fun e he =>
            List.elem_iff.mpr (hsup e ((hmemE e).mp he))
        rw [hall] at htrue
        cases htrue

/-- Witness for C8: expecting `{"a","b"}` succeeds against
`aud = ["a","b","c"]` and fails against `aud = ["a"]`. -/
theorem audience_superset_check_witness :
    (checkOne (exampleJwt "none"
        [("aud", .array [.string "a", .string "b", .string "c"])])
      ("aud", .array (["a", "b"].map .string)) = .ok () ↔
      ∃ aud, getAudience (exampleJwt "none"
        [("aud", .array [.string "a", .string "b", .string "c"])]) =
          .ok aud ∧ ∀ e ∈ ["a", "b"], e ∈ aud) ∧
    checkOne (exampleJwt "none" [("aud", .array [.string "a", .string "b",
      .string "c"])]) ("aud", .array (["a", "b"].map .string)) = .ok () ∧
    checkOne (exampleJwt "none" [("aud", .array [.string "a"])])
      ("aud", .array (["a", "b"].map .string)) = .error .missingAudience := by
  refine ⟨?_, by decide, by decide⟩
  exact audience_superset_check ["a", "b"] _
    (by
      intro c hc
      have hce : c = JsonValue.array
          [.string "a", .string "b", .string "c"] := by
        simp [mapFind, exampleJwt] at hc
        exact hc.symm
      subst hce
      refine Or.inr ⟨_, rfl, ?_⟩
      intro x hx
      rcases List.mem_cons.mp hx with rfl | hx
      · exact ⟨"a", rfl⟩
      rcases List.mem_cons.mp hx with rfl | hx
      · exact ⟨"b", rfl⟩
      rcases List.mem_cons.mp hx with rfl | hx
      · exact ⟨"c", rfl⟩
      cases hx)

/-- C9: whenever decoding succeeds, both the decoded header text and the
decoded payload text parse as JSON *objects* (anything else is rejected
as the DecodeError `"Invalid json"`), and the stored signature is
exactly the base64url-decoded third segment — computed without the JSON
parser ever touching it. -/
theorem decode_json_object_invariant (par : List Nat → Option JsonValue)
    (token : List Nat) (d : DecodedJwt)
    (hd : decodeJwt par token = .ok d) :
    (∃ kvs, par d.headerStr = some (.object kvs) ∧
      d.headerClaims = claimsOf kvs) ∧
    (∃ kvs, par d.payloadStr = some (.object kvs) ∧
      d.payloadClaims = claimsOf kvs) ∧
    (∃ seg, splitJwt token = .ok seg ∧
      b64decode (fixPadding seg.2.2) = some d.signature) := by
  unfold decodeJwt at hd
  cases hsp : splitJwt token with
  | error e => simp [hsp] at hd
  | ok seg =>
    obtain ⟨hB64, pB64, sB64⟩ := seg
    simp only [hsp] at hd
    cases hH : b64decode (fixPadding hB64) with
    | none => simp [hH] at hd
    | some hStr =>
      simp only [hH] at hd
      cases hP : b64decode (fixPadding pB64) with
      | none => simp [hP] at hd
      | some pStr =>
        simp only [hP] at hd
        cases hS : b64decode (fixPadding sB64) with
        | none => simp [hS] at hd
        | some sStr =>
          simp only [hS] at hd
          cases hHC : parseClaims par hStr with
          | error e => simp [hHC] at hd
          | ok hClaims =>
            simp only [hHC] at hd
            cases hPC : parseClaims par pStr with
            | error e => simp [hPC] at hd
            | ok pClaims =>
              simp only [hPC] at hd
              have hde : (⟨token, hStr, hB64, pStr, pB64, sStr, sB64,
                  hClaims, pClaims⟩ : DecodedJwt) = d := by
                cases hd
                rfl
              subst hde
              obtain ⟨kvsh, hvh, hch⟩ := parseClaims_ok hHC
              obtain ⟨kvsp, hvp, hcp⟩ := parseClaims_ok hPC
              exact ⟨⟨kvsh, hvh, hch⟩, ⟨kvsp, hvp, hcp⟩,
                ⟨(hB64, pB64, sB64), rfl, hS⟩⟩

/-- C6: `builder::sign` unconditionally overwrites the `alg` header claim
with the algorithm's name (the result does not depend on any prior `alg`
value), serializes both claim maps, base64url-encodes each with the
trailing fill characters stripped (the code keeps the prefix before the
first fill, which on base64 output is exactly the trailing-fill strip),
signs `encoded_header ++ "." ++ encoded_payload`, and returns
`signing_input ++ "." ++ stripped-encoded-signature`. -/
theorem builder_sign_structure (ser : JsonValue → List Nat) (algo : SignAlg)
    (b : Builder) :
    (∀ c0, builderSign ser algo (setHeaderClaim "alg" c0 b) =
      builderSign ser algo b) ∧
    mapFind "alg" (setAlgorithm algo.algName b).headerClaims =
      some (.string algo.algName) ∧
    builderSign ser algo b =
      (stripFillsEnd (b64encode (ser (.object
          (mapInsert "alg" (.string algo.algName) b.headerClaims)))) ++
        dotByte :: stripFillsEnd (b64encode (ser (.object b.payloadClaims))))
        ++ dotByte :: stripFillsEnd (b64encode (algo.signFn
          (stripFillsEnd (b64encode (ser (.object
              (mapInsert "alg" (.string algo.algName) b.headerClaims)))) ++
            dotByte :: stripFillsEnd (b64encode
              (ser (.object b.payloadClaims)))))) := by
  refine ⟨?_, ?_, ?_⟩
  · intro c0
    simp [builderSign, setAlgorithm, setHeaderClaim,
      mapInsert_mapInsert_same]
  · exact mapFind_mapInsert_self "alg" (.string algo.algName) _
  · show (encodeStrip (ser (.object (mapInsert "alg" (.string algo.algName)
        b.headerClaims))) ++ dotByte :: encodeStrip
        (ser (.object b.payloadClaims))) ++ dotByte :: encodeStrip
        (algo.signFn ((encodeStrip (ser (.object (mapInsert "alg"
          (.string algo.algName) b.headerClaims)))) ++ dotByte ::
          encodeStrip (ser (.object b.payloadClaims)))) = _
    rw [(encodeStrip_spec (ser (.object (mapInsert "alg"
        (.string algo.algName) b.headerClaims)))).1,
      (encodeStrip_spec (ser (.object b.payloadClaims))).1,
      (encodeStrip_spec _).1]

/-- Witness for C9: decoding the two-dot token `".."` with a codec that
parses the empty text as the empty object. -/
theorem decode_json_object_invariant_witness :
    (∃ kvs, some (JsonValue.object []) = some (JsonValue.object kvs) ∧
      ([] : List (String × JsonValue)) = claimsOf kvs) ∧
    (∃ kvs, some (JsonValue.object []) = some (JsonValue.object kvs) ∧
      ([] : List (String × JsonValue)) = claimsOf kvs) ∧
    (∃ seg, splitJwt (bytes "..") = .ok seg ∧
      b64decode (fixPadding seg.2.2) = some []) :=
  decode_json_object_invariant (fun _ => some (.object [])) (bytes "..")
    ⟨bytes "..", [], [], [], [], [], [], [], []⟩ rfl

/-- C10: the verifier keeps leeway overrides and required claims in the
single `claims` map: a claim registered under `"exp"`/`"iat"`/`"nbf"` via
`with_claim` is skipped by the required-claims loop (never content
checked), and its stored value, read as epoch seconds, becomes the leeway
of the corresponding time check — which is exactly what
`expires_at_leeway`/`issued_at_leeway`/`not_before_leeway` store. -/
theorem shared_claim_map_leeway (v : Verifier) (now : Int)
    (jwt : DecodedJwt) (n : Nat) (L : Int) :
    (∀ c, checkOne jwt ("exp", c) = .ok ()) ∧
    (∀ c, checkOne jwt ("iat", c) = .ok ()) ∧
    (∀ c, checkOne jwt ("nbf", c) = .ok ()) ∧
    (∀ claims : List (String × JsonValue),
      checkClaims jwt (claims.filter
        (fun kc => !(kc.1 == "exp" || kc.1 == "iat" || kc.1 == "nbf"))) =
      checkClaims jwt claims) ∧
    (∀ t : Int, mapFind "exp" jwt.payloadClaims = some (.int64 t) →
      checkExp (withClaim "exp" (.int64 L) v) now jwt =
        if now > t + L then .error .tokenExpired else .ok ()) ∧
    (∀ t : Int, mapFind "iat" jwt.payloadClaims = some (.int64 t) →
      checkIat (withClaim "iat" (.int64 L) v) now jwt =
        if now < t - L then .error .tokenExpired else .ok ()) ∧
    (∀ t : Int, mapFind "nbf" jwt.payloadClaims = some (.int64 t) →
      checkNbf (withClaim "nbf" (.int64 L) v) now jwt =
        if now < t - L then .error .tokenExpired else .ok ()) ∧
    expiresAtLeeway n v = withClaim "exp" (.int64 (toTimeT n)) v ∧
    issuedAtLeeway n v = withClaim "iat" (.int64 (toTimeT n)) v ∧
    notBeforeLeeway n v = withClaim "nbf" (.int64 (toTimeT n)) v ∧
    (n < 2 ^ 63 → toTimeT n = n) := by
  have hskip : ∀ (name : String) c, (name = "exp" ∨ name = "iat" ∨
      name = "nbf") → checkOne jwt (name, c) = .ok () := by
    intro name c hn
    simp [checkOne, hn]
  refine ⟨fun c => hskip "exp" c (by simp), fun c => hskip "iat" c (by simp),
    fun c => hskip "nbf" c (by simp), ?_, ?_, ?_, ?_, rfl, rfl, rfl, ?_⟩
  · intro claims
    induction claims with
    | nil => rfl
    | cons kc rest ih =>
      by_cases hk : kc.1 = "exp" ∨ kc.1 = "iat" ∨ kc.1 = "nbf"
      · have hf : (!(kc.1 == "exp" || kc.1 == "iat" || kc.1 == "nbf")) =
            false := by
          rcases hk with h | h | h <;> simp [h]
        rw [List.filter_cons]
        simp only [hf, Bool.false_eq_true, if_false]
        rw [ih]
        have : checkOne jwt kc = .ok () := by
          obtain ⟨k1, c1⟩ := kc
          exact hskip k1 c1 hk
        simp [checkClaims, this, seqE]
      · have hf : (!(kc.1 == "exp" || kc.1 == "iat" || kc.1 == "nbf")) =
            true := by
          push_neg at hk
          simp [hk.1, hk.2.1, hk.2.2]
        rw [List.filter_cons]
        simp only [hf, if_true]
        simp only [checkClaims]
        rw [ih]
  · intro t ht
    have hp : hasPayloadClaim "exp" jwt = true := by
      simp [hasPayloadClaim, ht]
    simp [checkExp, hp, leewayFor, withClaim, mapFind_mapInsert_self,
      asInt, getDateClaim, ht]
  · intro t ht
    have hp : hasPayloadClaim "iat" jwt = true := by
      simp [hasPayloadClaim, ht]
    simp [checkIat, hp, leewayFor, withClaim, mapFind_mapInsert_self,
      asInt, getDateClaim, ht]
  · intro t ht
    have hp : hasPayloadClaim "nbf" jwt = true := by
      simp [hasPayloadClaim, ht]
    simp [checkNbf, hp, leewayFor, withClaim, mapFind_mapInsert_self,
      asInt, getDateClaim, ht]
  · intro hn
    unfold toTimeT
    omega

/-- Witness for C10: with the `exp` leeway stored through
`expires_at_leeway 7`, a token with `exp = 5` fails at `now = 13`
(13 > 5 + 7) even though the claims map contains an `"exp"` entry that
the required-claims loop never content-checks. -/
theorem shared_claim_map_leeway_witness :
    checkExp (withClaim "exp" (.int64 (toTimeT 7)) ⟨[], 0, []⟩) 13
      (exampleJwt "none" [("exp", .int64 5)]) = .error .tokenExpired ∧
    toTimeT 7 = 7 := by
  have h := shared_claim_map_leeway ⟨[], 0, []⟩ 13
    (exampleJwt "none" [("exp", .int64 5)]) 7 (toTimeT 7)
  constructor
  · rw [h.2.2.2.2.1 5 rfl]
    decide
  · exact h.2.2.2.2.2.2.2.2.2.2 (by norm_num)

/-- Counterexample for C4 as stated: the `nbf` check does not raise a
NotYetValid error distinct from ExpiredToken — a token valid only from
`nbf = 100` checked at `now = 0` fails with the very same
`token_verification_exception("token expired")` value that an expired
token (`exp = -1` at `now = 0`) produces. -/
theorem nbf_error_equals_exp_error :
    verifierVerify ⟨[], 0, [("none", noneVerify)]⟩ 0
      (exampleJwt "none" [("nbf", .int64 100)]) = .error .tokenExpired ∧
    verifierVerify ⟨[], 0, [("none", noneVerify)]⟩ 0
      (exampleJwt "none" [("exp", .int64 (-1))]) = .error .tokenExpired :=
  ⟨by decide, by decide⟩

/-- C4 (amended): with the signature stage passing, each time check runs
only if its payload claim is present, `leeway(name)` is the stored
override when set and the default leeway otherwise, and `verify` raises
the `"token expired"` error exactly when `now > exp + leeway(exp)`, or
`now < iat - leeway(iat)`, or `now < nbf - leeway(nbf)` — the `nbf`
violation raising the *same* ExpiredToken error as `exp`/`iat`, not a
distinct NotYetValid.  A token with `exp = now - 1` fails under default
leeway 0 and verifies under `expires_at_leeway 2`. -/
theorem time_checks_and_leeway (v : Verifier) (now : Int)
    (jwt : DecodedJwt) (a : String) (A : List Nat → List Nat → Bool)
    (ha : getAlgorithm jwt = .ok a)
    (hf : algFind a v.algs = some A)
    (hv : A (signingInput jwt) jwt.signature = true)
    (hti : timeClaimsInt jwt) (hoi : overridesInt v) :
    (verifierVerify v now jwt = .error .tokenExpired ↔
      (expViolated v now jwt ∨ iatViolated v now jwt ∨
        nbfViolated v now jwt)) ∧
    (∀ name, (name = "exp" ∨ name = "iat" ∨ name = "nbf") →
      leewayFor v name = .ok (specLeeway v name)) ∧
    verifierVerify ⟨[], 0, [("none", noneVerify)]⟩ 100
      (exampleJwt "none" [("exp", .int64 99)]) = .error .tokenExpired ∧
    verifierVerify (expiresAtLeeway 2 ⟨[], 0, [("none", noneVerify)]⟩) 100
      (exampleJwt "none" [("exp", .int64 99)]) = .ok () := by
  have hverify : verifierVerify v now jwt =
      seqE (checkExp v now jwt) (seqE (checkIat v now jwt)
        (seqE (checkNbf v now jwt) (checkClaims jwt v.claims))) := by
    simp [verifierVerify, ha, hf, hv]
  obtain ⟨he_iff, he_cases⟩ := checkExp_spec v now jwt hti hoi
  obtain ⟨hi_iff, hi_cases⟩ := checkIat_spec v now jwt hti hoi
  obtain ⟨hn_iff, hn_cases⟩ := checkNbf_spec v now jwt hti hoi
  refine ⟨?_, ?_, by decide, by decide⟩
  · rw [hverify]
    rcases he_cases with he | he
    · rcases hi_cases with hi | hi
      · rcases hn_cases with hn | hn
        · rw [he, hi, hn]
          simp only [seqE]
          constructor
          · intro h
            exact absurd h (checkClaims_ne_expired jwt v.claims)
          · rintro (hx | hx | hx)
            · have hh := he_iff.mpr hx
              rw [he] at hh
              cases hh
            · have hh := hi_iff.mpr hx
              rw [hi] at hh
              cases hh
            · have hh := hn_iff.mpr hx
              rw [hn] at hh
              cases hh
        · rw [he, hi, hn]
          simp only [seqE]
          exact ⟨fun _ => Or.inr (Or.inr (hn_iff.mp hn)), fun _ => trivial⟩
      · rw [he, hi]
        simp only [seqE]
        exact ⟨fun _ => Or.inr (Or.inl (hi_iff.mp hi)), fun _ => trivial⟩
    · rw [he]
      simp only [seqE]
      exact ⟨fun _ => Or.inl (he_iff.mp he), fun _ => trivial⟩
  · intro name hn
    unfold leewayFor specLeeway
    cases hov : mapFind name v.claims with
    | none => rfl
    | some c2 =>
      obtain ⟨L, rfl⟩ := hoi name hn c2 hov
      rfl

/-- Witness for C4 (amended): a token carrying only `nbf = 100` checked
at `now = 50` with the `none` algorithm registered and no configured
claims; all hypotheses hold concretely. -/
theorem time_checks_and_leeway_witness :
    (verifierVerify ⟨[], 0, [("none", noneVerify)]⟩ 50
        (exampleJwt "none" [("nbf", .int64 100)]) = .error .tokenExpired ↔
      (expViolated ⟨[], 0, [("none", noneVerify)]⟩ 50
          (exampleJwt "none" [("nbf", .int64 100)]) ∨
        iatViolated ⟨[], 0, [("none", noneVerify)]⟩ 50
          (exampleJwt "none" [("nbf", .int64 100)]) ∨
        nbfViolated ⟨[], 0, [("none", noneVerify)]⟩ 50
          (exampleJwt "none" [("nbf", .int64 100)]))) ∧
    (∀ name, (name = "exp" ∨ name = "iat" ∨ name = "nbf") →
      leewayFor ⟨[], 0, [("none", noneVerify)]⟩ name =
        .ok (specLeeway ⟨[], 0, [("none", noneVerify)]⟩ name)) ∧
    verifierVerify ⟨[], 0, [("none", noneVerify)]⟩ 100
      (exampleJwt "none" [("exp", .int64 99)]) = .error .tokenExpired ∧
    verifierVerify (expiresAtLeeway 2 ⟨[], 0, [("none", noneVerify)]⟩) 100
      (exampleJwt "none" [("exp", .int64 99)]) = .ok () :=
  time_checks_and_leeway ⟨[], 0, [("none", noneVerify)]⟩ 50
    (exampleJwt "none" [("nbf", .int64 100)]) "none" noneVerify rfl rfl rfl
    (by
      intro name hn c hc
      rcases hn with rfl | rfl | rfl
      · simp [mapFind, exampleJwt] at hc
      · simp [mapFind, exampleJwt] at hc
      · simp [mapFind, exampleJwt] at hc
        exact ⟨100, hc.symm⟩)
    (by
      intro name hn c hc
      simp [mapFind] at hc)

/-- C5: round trip — decoding a token built by `builder::sign` succeeds,
the decoded header claims are the builder's header claims with `alg`
overwritten by the algorithm's name, the decoded payload claims are
exactly the builder's payload claims, `get_algorithm()` returns the
signing algorithm's name, and the decoded signature bytes are the
algorithm's signature of the signing input.  The JSON codec (external
picojson) is a serialize/parse parameter pair assumed to round-trip on
the two serialized objects and to emit bytes. -/
theorem sign_decode_roundtrip (ser : JsonValue → List Nat)
    (par : List Nat → Option JsonValue) (algo : SignAlg) (b : Builder)
    (hnodh : (b.headerClaims.map Prod.fst).Nodup)
    (hnodp : (b.payloadClaims.map Prod.fst).Nodup)
    (hsh : par (ser (.object (mapInsert "alg" (.string algo.algName)
      b.headerClaims))) = some (.object (mapInsert "alg"
      (.string algo.algName) b.headerClaims)))
    (hsp : par (ser (.object b.payloadClaims)) =
      some (.object b.payloadClaims))
    (hbh : ∀ c ∈ ser (.object (mapInsert "alg" (.string algo.algName)
      b.headerClaims)), c < 256)
    (hbp : ∀ c ∈ ser (.object b.payloadClaims), c < 256)
    (hbs : ∀ data, ∀ c ∈ algo.signFn data, c < 256) :
    ∃ d, decodeJwt par (builderSign ser algo b) = .ok d ∧
      d.headerClaims = mapInsert "alg" (.string algo.algName)
        b.headerClaims ∧
      d.payloadClaims = b.payloadClaims ∧
      getAlgorithm d = .ok algo.algName ∧
      d.signature = algo.signFn (encodeStrip (ser (.object (mapInsert
        "alg" (.string algo.algName) b.headerClaims))) ++ dotByte ::
        encodeStrip (ser (.object b.payloadClaims))) := by
  obtain ⟨_, hdh, hfh⟩ := encodeStrip_spec (ser (.object (mapInsert "alg"
    (.string algo.algName) b.headerClaims)))
  obtain ⟨_, hdp, hfp⟩ := encodeStrip_spec (ser (.object b.payloadClaims))
  obtain ⟨_, hds, hfs⟩ := encodeStrip_spec (algo.signFn
    (encodeStrip (ser (.object (mapInsert "alg" (.string algo.algName)
      b.headerClaims))) ++ dotByte ::
      encodeStrip (ser (.object b.payloadClaims))))
  have hnodh' : ((mapInsert "alg" (.string algo.algName)
      b.headerClaims).map Prod.fst).Nodup :=
    mapInsert_nodup "alg" (.string algo.algName) b.headerClaims hnodh
  have hsplit : splitJwt (builderSign ser algo b) =
      .ok (encodeStrip (ser (.object (mapInsert "alg"
          (.string algo.algName) b.headerClaims))),
        encodeStrip (ser (.object b.payloadClaims)),
        encodeStrip (algo.signFn (encodeStrip (ser (.object (mapInsert
          "alg" (.string algo.algName) b.headerClaims))) ++ dotByte ::
          encodeStrip (ser (.object b.payloadClaims))))) := by
    have hform : builderSign ser algo b =
        encodeStrip (ser (.object (mapInsert "alg" (.string algo.algName)
          b.headerClaims))) ++ dotByte ::
        (encodeStrip (ser (.object b.payloadClaims)) ++ dotByte ::
          encodeStrip (algo.signFn (encodeStrip (ser (.object (mapInsert
            "alg" (.string algo.algName) b.headerClaims))) ++ dotByte ::
            encodeStrip (ser (.object b.payloadClaims))))) := by
      show (encodeStrip (ser (.object (mapInsert "alg"
          (.string algo.algName) b.headerClaims))) ++ dotByte ::
          encodeStrip (ser (.object b.payloadClaims))) ++ dotByte ::
          encodeStrip (algo.signFn (encodeStrip (ser (.object (mapInsert
            "alg" (.string algo.algName) b.headerClaims))) ++ dotByte ::
            encodeStrip (ser (.object b.payloadClaims)))) = _
      simp [List.append_assoc]
    rw [hform]
    exact splitJwt_append hdh hdp
  have hdec1 : b64decode (fixPadding (encodeStrip (ser (.object
      (mapInsert "alg" (.string algo.algName) b.headerClaims))))) =
      some (ser (.object (mapInsert "alg" (.string algo.algName)
        b.headerClaims))) := by
    rw [hfh]
    exact b64_roundtrip _ hbh
  have hdec2 : b64decode (fixPadding (encodeStrip
      (ser (.object b.payloadClaims)))) =
      some (ser (.object b.payloadClaims)) := by
    rw [hfp]
    exact b64_roundtrip _ hbp
  have hdec3 : b64decode (fixPadding (encodeStrip (algo.signFn
      (encodeStrip (ser (.object (mapInsert "alg" (.string algo.algName)
        b.headerClaims))) ++ dotByte ::
        encodeStrip (ser (.object b.payloadClaims)))))) =
      some (algo.signFn (encodeStrip (ser (.object (mapInsert "alg"
        (.string algo.algName) b.headerClaims))) ++ dotByte ::
        encodeStrip (ser (.object b.payloadClaims)))) := by
    rw [hfs]
    exact b64_roundtrip _ (hbs _)
  have hpc1 : parseClaims par (ser (.object (mapInsert "alg"
      (.string algo.algName) b.headerClaims))) =
      .ok (mapInsert "alg" (.string algo.algName) b.headerClaims) := by
    unfold parseClaims
    rw [hsh]
    simp [getObject, claimsOf_nodup _ hnodh']
  have hpc2 : parseClaims par (ser (.object b.payloadClaims)) =
      .ok b.payloadClaims := by
    unfold parseClaims
    rw [hsp]
    simp [getObject, claimsOf_nodup _ hnodp]
  refine ⟨⟨builderSign ser algo b,
    ser (.object (mapInsert "alg" (.string algo.algName) b.headerClaims)),
    encodeStrip (ser (.object (mapInsert "alg" (.string algo.algName)
      b.headerClaims))),
    ser (.object b.payloadClaims),
    encodeStrip (ser (.object b.payloadClaims)),
    algo.signFn (encodeStrip (ser (.object (mapInsert "alg"
      (.string algo.algName) b.headerClaims))) ++ dotByte ::
      encodeStrip (ser (.object b.payloadClaims))),
    encodeStrip (algo.signFn (encodeStrip (ser (.object (mapInsert "alg"
      (.string algo.algName) b.headerClaims))) ++ dotByte ::
      encodeStrip (ser (.object b.payloadClaims)))),
    mapInsert "alg" (.string algo.algName) b.headerClaims,
    b.payloadClaims⟩, ?_, rfl, rfl, ?_, rfl⟩
  · unfold decodeJwt
    simp only [hsplit, hdec1, hdec2, hdec3, hpc1, hpc2]
  · simp [getAlgorithm, mapFind_mapInsert_self, asString]

/-- Witness for C5: the empty builder signed with the `none` algorithm
through a concrete two-value JSON codec. -/
theorem sign_decode_roundtrip_witness :
    ∃ d, decodeJwt toyPar (builderSign toySer toyAlg ⟨[], []⟩) = .ok d ∧
      d.headerClaims = mapInsert "alg" (.string toyAlg.algName) [] ∧
      d.payloadClaims = [] ∧
      getAlgorithm d = .ok toyAlg.algName ∧
      d.signature = toyAlg.signFn (encodeStrip (toySer (.object
        (mapInsert "alg" (.string toyAlg.algName) []))) ++ dotByte ::
        encodeStrip (toySer (.object []))) :=
  sign_decode_roundtrip toySer toyPar toyAlg ⟨[], []⟩ (by simp) (by simp)
    rfl rfl (by decide) (by decide)
    (fun data c hc => by simp [toyAlg, noneSign] at hc)

end Jwt
